import Mathlib

/-!
Verification of the `syncslice` package (pkg/syncslice.go): a mutex-guarded
dynamic slice `Slice[T]` with a separate `int32` length counter.

Modelling conventions:
* Every exported method holds the one mutex for its whole body (or, for
  `Get`/`GetUnsafe`/`Length`/`Range`, reads without it), so each call is a
  single atomic step; the embedding is therefore a sequential state-passing
  semantics on the record of the two data fields, and the mutex field itself
  is not represented.  A concurrent execution of complete calls is an
  interleaving, i.e. some sequential order of the same calls.
* Go slices are modelled as `List`; the capacity a slice may hold beyond its
  length is an implementation artifact the package never exposes, so the
  model identifies capacity with length, and a slice-bound violation
  (a Go panic) is modelled by `Option`: `none` is a panic of the calling
  goroutine.
* The `len` field is an `int32` cell updated with `atomic.AddInt32` /
  `atomic.StoreInt32`; its two's-complement wrap-around is modelled
  explicitly by `wrap32` on `Int`.
* A `manipulateFunc func(*T)` callback mutates the pointed-at slot in place;
  it is modelled as the function `T → T` it performs on that slot.
-/

/-- Two's-complement truncation of an integer to the signed 32-bit range:
the semantics of Go `int32` overflow (as in `atomic.AddInt32`) and of the
conversion `int32(x)`. -/
def wrap32 (n : Int) : Int := (n + 2 ^ 31) % 2 ^ 32 - 2 ^ 31

/-- Go slice indexing `l[i]` with `i` a Go `int`: the element when
`0 <= i < len(l)`, otherwise `none` (an index-out-of-range panic). -/
def goIndex {T : Type} (l : List T) (i : Int) : Option T :=
  if h : 0 ≤ i ∧ i.toNat < l.length then some (l.get ⟨i.toNat, h.2⟩) else none

/-- Go element assignment `l[i] = v`: the updated slice when
`0 <= i < len(l)`, otherwise `none` (an index-out-of-range panic). -/
def goSetElem {T : Type} (l : List T) (i : Int) (v : T) : Option (List T) :=
  if 0 ≤ i ∧ i.toNat < l.length then some (l.set i.toNat v) else none

/-- Go `append(l[:i], l[i+1:]...)` as used by `Remove`/`RemoveUnsafe`:
defined when both slicings are in bounds (`0 <= i` and `i+1 <= len(l)`),
otherwise `none` (a slice-bounds panic). -/
def goRemoveAt {T : Type} (l : List T) (i : Int) : Option (List T) :=
  if 0 ≤ i ∧ i.toNat + 1 ≤ l.length then
    some (l.take i.toNat ++ l.drop (i.toNat + 1))
  else none

/-- Go `make([]T, len(l))` followed by `copy(dst, l)`: a fresh sequence
built slot by slot from `l`, sharing no storage with it. -/
def goCopy {T : Type} (l : List T) : List T :=
  List.ofFn fun i : Fin l.length => l.get i

/-- The two data fields of `Slice[T]` (pkg/syncslice.go lines 9-13); the
`sync.Mutex` is not data and is not represented. `len` holds the value of
the `int32` counter. -/
structure Slice (T : Type) where
  slice : List T
  len : Int
  deriving DecidableEq

/-- `New[T]()` returns `&Slice[T]{}`: nil slice, zero counter. -/
def Slice.New (T : Type) : Slice T :=
  { slice := [], len := 0 }

/-- `Append`: push onto the backing slice, `atomic.AddInt32(&s.len, 1)`. -/
def Slice.Append {T : Type} (s : Slice T) (value : T) : Slice T :=
  { slice := s.slice ++ [value], len := wrap32 (s.len + 1) }

/-- `Get`: if `index < 0 || index >= int(atomic.LoadInt32(&s.len))` return
the zero value and `false`; otherwise read `s.slice[index]` (which panics,
i.e. `none`, if the backing slice is shorter than the counter claims). -/
def Slice.Get {T : Type} [Inhabited T] (s : Slice T) (index : Int) :
    Option (T × Bool) :=
  if index < 0 || s.len ≤ index then some (default, false)
  else (goIndex s.slice index).map fun v => (v, true)

/-- `GetUnsafe`: `s.slice[index]` with no check; out of bounds is a panic. -/
def Slice.GetUnsafe {T : Type} (s : Slice T) (index : Int) : Option T :=
  goIndex s.slice index

/-- `Set`: under the lock, bounds-check against `int(s.len)`; in range,
assign `s.slice[index] = value` and return `true`, else return `false`. -/
def Slice.Set {T : Type} (s : Slice T) (index : Int) (value : T) :
    Option (Slice T × Bool) :=
  if index < 0 || s.len ≤ index then some (s, false)
  else (goSetElem s.slice index value).map fun l => ({ s with slice := l }, true)

/-- `SetUnsafe`: under the lock, `s.slice[index] = value` with no check. -/
def Slice.SetUnsafe {T : Type} (s : Slice T) (index : Int) (value : T) :
    Option (Slice T) :=
  (goSetElem s.slice index value).map fun l => { s with slice := l }

/-- `Length`: `int(atomic.LoadInt32(&s.len))`. -/
def Slice.Length {T : Type} (s : Slice T) : Int := s.len

/-- `Remove`: under the lock, bounds-check against `int(s.len)`; in range,
`s.slice = append(s.slice[:index], s.slice[index+1:]...)` and
`atomic.AddInt32(&s.len, -1)`, returning `true`; else return `false`. -/
def Slice.Remove {T : Type} (s : Slice T) (index : Int) :
    Option (Slice T × Bool) :=
  if index < 0 || s.len ≤ index then some (s, false)
  else (goRemoveAt s.slice index).map fun l =>
    ({ slice := l, len := wrap32 (s.len - 1) }, true)

/-- `RemoveUnsafe`: the same splice and counter decrement with no check. -/
def Slice.RemoveUnsafe {T : Type} (s : Slice T) (index : Int) :
    Option (Slice T) :=
  (goRemoveAt s.slice index).map fun l =>
    { slice := l, len := wrap32 (s.len - 1) }

/-- The visit trace of Go `for i, v := range list { if !f(i, v) { break } }`
starting at index `i₀`: the `(index, value)` pairs `f` is called on, in
call order. -/
def rangeVisits {T : Type} (f : Int → T → Bool) : Int → List T → List (Int × T)
  | _, [] => []
  | i, v :: rest => if f i v then (i, v) :: rangeVisits f (i + 1) rest else [(i, v)]

/-- `Range`: iterate the backing slice from index 0, stopping after the
first call on which `f` returns `false`; the result is the trace of calls
made to `f`. -/
def Slice.Range {T : Type} (s : Slice T) (f : Int → T → Bool) : List (Int × T) :=
  rangeVisits f 0 s.slice

/-- `SetSlice`: under the lock, adopt a fresh copy of `newSlice` and
`atomic.StoreInt32(&s.len, int32(len(newSlice)))`. -/
def Slice.SetSlice {T : Type} (_s : Slice T) (newSlice : List T) : Slice T :=
  { slice := goCopy newSlice, len := wrap32 newSlice.length }

/-- `GetSlice`: under the lock, return a fresh copy of the backing slice. -/
def Slice.GetSlice {T : Type} (s : Slice T) : List T :=
  goCopy s.slice

/-- `ManipulateAtIndex`: under the lock, bounds-check against `int(s.len)`;
in range, call `manipulateFunc(&s.slice[index])` once (modelled: the slot
becomes `manipulateFunc` of its old value) and return `true`; else return
`false` without calling it. -/
def Slice.ManipulateAtIndex {T : Type} (s : Slice T) (index : Int)
    (manipulateFunc : T → T) : Option (Slice T × Bool) :=
  if index < 0 || s.len ≤ index then some (s, false)
  else (goIndex s.slice index).map fun v =>
    ({ s with slice := s.slice.set index.toNat (manipulateFunc v) }, true)

/-- `ManipulateAtIndexUnsafe`: the same slot update with no check;
`&s.slice[index]` panics when the index is outside the backing slice. -/
def Slice.ManipulateAtIndexUnsafe {T : Type} (s : Slice T) (index : Int)
    (manipulateFunc : T → T) : Option (Slice T) :=
  (goIndex s.slice index).map fun v =>
    { s with slice := s.slice.set index.toNat (manipulateFunc v) }

/-- A sequence of `Append` calls, front of the list first. -/
def Slice.AppendAll {T : Type} (s : Slice T) (l : List T) : Slice T :=
  l.foldl Slice.Append s

/-- The representation invariant of §3 of the design: the counter equals
the number of elements actually held (so every index below it is live),
and that count is representable in the `int32` cell. -/
def Slice.WF {T : Type} (s : Slice T) : Prop :=
  s.len = s.slice.length ∧ (s.slice.length : Int) < 2 ^ 31

instance {T : Type} (s : Slice T) : Decidable s.WF := by
  unfold Slice.WF
  infer_instance

/-- The elements of a list paired with their Go `range` indices, starting
at `i₀`.  Used only to state the specification of `Range`. -/
def enumFromInt {T : Type} : Int → List T → List (Int × T)
  | _, [] => []
  | i, v :: rest => (i, v) :: enumFromInt (i + 1) rest

/-- The visit order §4.1 of the design prescribes for `Range`: the live
elements in index order from 0, up to and including the first element on
which the visitor returns false (the spec-side description, to be compared
with the implementation's `Slice.Range`). -/
def rangeSpec {T : Type} (f : Int → T → Bool) (l : List T) : List (Int × T) :=
  (enumFromInt 0 l).takeWhile (fun p => f p.1 p.2) ++
    ((enumFromInt 0 l).drop
      ((enumFromInt 0 l).takeWhile (fun p => f p.1 p.2)).length).take 1

/-! ### Arithmetic facts about the 32-bit wrap -/

theorem wrap32_eq_self {n : Int} (h1 : -2 ^ 31 ≤ n) (h2 : n < 2 ^ 31) :
    wrap32 n = n := by
  unfold wrap32; omega

theorem wrap32_add_left (a b : Int) : wrap32 (wrap32 a + b) = wrap32 (a + b) := by
  unfold wrap32; omega

theorem wrap32_idem (a : Int) : wrap32 (wrap32 a) = wrap32 a := by
  unfold wrap32; omega

theorem wrap32_lt (n : Int) : wrap32 n < 2 ^ 31 := by
  unfold wrap32; omega

/-! ### Facts about the Go slice primitives -/

theorem goCopy_eq {T : Type} (l : List T) : goCopy l = l :=
  List.ofFn_get l

theorem goIndex_eq_get {T : Type} (l : List T) (i : Nat) (h : i < l.length) :
    goIndex l (i : Int) = some (l.get ⟨i, h⟩) := by
  simp [goIndex, h]

theorem goIndex_eq_none {T : Type} (l : List T) {i : Int}
    (h : i < 0 ∨ (l.length : Int) ≤ i) : goIndex l i = none := by
  unfold goIndex
  rw [dif_neg]
  rintro ⟨h0, hlt⟩
  omega

theorem goSetElem_eq_some {T : Type} (l : List T) (i : Nat) (v : T)
    (h : i < l.length) : goSetElem l (i : Int) v = some (l.set i v) := by
  simp [goSetElem, h]

theorem goSetElem_eq_none {T : Type} (l : List T) {i : Int} (v : T)
    (h : i < 0 ∨ (l.length : Int) ≤ i) : goSetElem l i v = none := by
  unfold goSetElem
  rw [if_neg]
  rintro ⟨h0, hlt⟩
  omega

theorem goRemoveAt_eq_some {T : Type} (l : List T) (i : Nat) (h : i < l.length) :
    goRemoveAt l (i : Int) = some (l.eraseIdx i) := by
  unfold goRemoveAt
  rw [if_pos (by omega), List.eraseIdx_eq_take_drop_succ]
  simp

theorem goRemoveAt_eq_none {T : Type} (l : List T) {i : Int}
    (h : i < 0 ∨ (l.length : Int) ≤ i) : goRemoveAt l i = none := by
  unfold goRemoveAt
  rw [if_neg]
  rintro ⟨h0, hle⟩
  omega

/-! ### Facts about sequences of appends -/

theorem AppendAll_slice {T : Type} (l : List T) (s : Slice T) :
    (s.AppendAll l).slice = s.slice ++ l := by
  induction l generalizing s with
  | nil => simp [Slice.AppendAll]
  | cons v rest ih =>
      have step : Slice.AppendAll s (v :: rest) = Slice.AppendAll (s.Append v) rest := rfl
      rw [step, ih]
      simp [Slice.Append]

theorem AppendAll_len {T : Type} (l : List T) (s : Slice T)
    (h : wrap32 s.len = s.len) :
    (s.AppendAll l).len = wrap32 (s.len + l.length) := by
  induction l generalizing s with
  | nil =>
      have : Slice.AppendAll s [] = s := rfl
      rw [this]
      simpa using h.symm
  | cons v rest ih =>
      have step : Slice.AppendAll s (v :: rest) = Slice.AppendAll (s.Append v) rest := rfl
      have happ : wrap32 (s.Append v).len = (s.Append v).len := by
        simp [Slice.Append, wrap32_idem]
      rw [step, ih (s.Append v) happ]
      show wrap32 (wrap32 (s.len + 1) + (rest.length : Int)) = _
      rw [wrap32_add_left]
      congr 1
      push_cast [List.length_cons]
      ring

/-! ### Operation lemmas -/

theorem Get_in_range {T : Type} [Inhabited T] {s : Slice T} {i : Nat}
    (hlen : s.len = (s.slice.length : Int)) (hi : i < s.slice.length) :
    s.Get i = some (s.slice.get ⟨i, hi⟩, true) := by
  unfold Slice.Get
  rw [if_neg (by simp; omega), goIndex_eq_get s.slice i hi]
  rfl

theorem Get_out_of_range {T : Type} [Inhabited T] {s : Slice T} {i : Int}
    (h : i < 0 ∨ s.len ≤ i) : s.Get i = some (default, false) := by
  unfold Slice.Get
  rw [if_pos (by simpa using h)]

theorem Set_in_range {T : Type} {s : Slice T} {i : Nat} (v : T)
    (hlen : s.len = (s.slice.length : Int)) (hi : i < s.slice.length) :
    s.Set i v = some ({ s with slice := s.slice.set i v }, true) := by
  unfold Slice.Set
  rw [if_neg (by simp; omega), goSetElem_eq_some s.slice i v hi]
  rfl

theorem Set_out_of_range {T : Type} {s : Slice T} {i : Int} (v : T)
    (h : i < 0 ∨ s.len ≤ i) : s.Set i v = some (s, false) := by
  unfold Slice.Set
  rw [if_pos (by simpa using h)]

theorem Remove_in_range {T : Type} {s : Slice T} {i : Nat}
    (hlen : s.len = (s.slice.length : Int)) (hi : i < s.slice.length) :
    s.Remove i =
      some ({ slice := s.slice.eraseIdx i, len := wrap32 (s.len - 1) }, true) := by
  unfold Slice.Remove
  rw [if_neg (by simp; omega), goRemoveAt_eq_some s.slice i hi]
  rfl

theorem Remove_out_of_range {T : Type} {s : Slice T} {i : Int}
    (h : i < 0 ∨ s.len ≤ i) : s.Remove i = some (s, false) := by
  unfold Slice.Remove
  rw [if_pos (by simpa using h)]

theorem ManipulateAtIndex_in_range {T : Type} {s : Slice T} {i : Nat} (f : T → T)
    (hlen : s.len = (s.slice.length : Int)) (hi : i < s.slice.length) :
    s.ManipulateAtIndex i f =
      some ({ s with slice := s.slice.set i (f (s.slice.get ⟨i, hi⟩)) }, true) := by
  unfold Slice.ManipulateAtIndex
  rw [if_neg (by simp; omega), goIndex_eq_get s.slice i hi]
  simp

theorem ManipulateAtIndex_out_of_range {T : Type} {s : Slice T} {i : Int}
    (f : T → T) (h : i < 0 ∨ s.len ≤ i) :
    s.ManipulateAtIndex i f = some (s, false) := by
  unfold Slice.ManipulateAtIndex
  rw [if_pos (by simpa using h)]

theorem Get_in_range_getD {T : Type} [Inhabited T] {s : Slice T} {i : Nat}
    (hlen : s.len = (s.slice.length : Int)) (hi : i < s.slice.length) :
    s.Get i = some (s.slice.getD i default, true) := by
  rw [Get_in_range hlen hi, List.getD_eq_getElem _ _ hi]
  simp

/-! ### One-step equations for the operations, used to rewrite instead of
forcing definitional unfolding through several layers at once -/

theorem Length_eq {T : Type} (s : Slice T) : s.Length = s.len := rfl

theorem SetSlice_len {T : Type} (s : Slice T) (l : List T) :
    (s.SetSlice l).len = wrap32 l.length := rfl

theorem SetSlice_slice {T : Type} (s : Slice T) (l : List T) :
    (s.SetSlice l).slice = goCopy l := rfl

theorem GetSlice_eq {T : Type} (s : Slice T) : s.GetSlice = goCopy s.slice := rfl

theorem New_len (T : Type) : (Slice.New T).len = 0 := rfl

theorem New_slice (T : Type) : (Slice.New T).slice = [] := rfl

theorem Append_len {T : Type} (s : Slice T) (v : T) :
    (s.Append v).len = wrap32 (s.len + 1) := rfl

theorem Append_slice {T : Type} (s : Slice T) (v : T) :
    (s.Append v).slice = s.slice ++ [v] := rfl

theorem GetUnsafe_eq {T : Type} (s : Slice T) (i : Int) :
    s.GetUnsafe i = goIndex s.slice i := rfl

theorem SetUnsafe_eq {T : Type} (s : Slice T) (i : Int) (v : T) :
    s.SetUnsafe i v =
      (goSetElem s.slice i v).map fun l => { s with slice := l } := rfl

theorem RemoveUnsafe_eq {T : Type} (s : Slice T) (i : Int) :
    s.RemoveUnsafe i = (goRemoveAt s.slice i).map fun l =>
      { slice := l, len := wrap32 (s.len - 1) } := rfl

theorem ManipulateAtIndexUnsafe_eq {T : Type} (s : Slice T) (i : Int)
    (f : T → T) :
    s.ManipulateAtIndexUnsafe i f = (goIndex s.slice i).map fun v =>
      { s with slice := s.slice.set i.toNat (f v) } := rfl

theorem Range_eq {T : Type} (s : Slice T) (f : Int → T → Bool) :
    s.Range f = rangeVisits f 0 s.slice := rfl

theorem wrap32_eq_self_iff {n : Int} (h0 : -2 ^ 31 ≤ n) :
    (wrap32 n = n ↔ n < 2 ^ 31) := by
  unfold wrap32; omega

theorem goSetElem_some {T : Type} {l l' : List T} {i : Int} {v : T}
    (h : goSetElem l i v = some l') : l' = l.set i.toNat v := by
  unfold goSetElem at h
  split at h
  · simpa using h.symm
  · simp at h

theorem goRemoveAt_some {T : Type} {l l' : List T} {i : Int}
    (h : goRemoveAt l i = some l') :
    0 ≤ i ∧ i.toNat + 1 ≤ l.length ∧
      l' = l.take i.toNat ++ l.drop (i.toNat + 1) := by
  unfold goRemoveAt at h
  split at h
  · next hc => exact ⟨hc.1, hc.2, by simpa using h.symm⟩
  · simp at h

theorem goIndex_some {T : Type} {l : List T} {u : T} {i : Int}
    (h : goIndex l i = some u) : 0 ≤ i ∧ i.toNat < l.length := by
  unfold goIndex at h
  split at h
  · next hc => exact hc
  · simp at h

/-! ### The claims -/

/-- C10: the length counter is a 32-bit signed cell. After `SetSlice(seq)` the
stored counter is `int32(len(seq))`, i.e. `len(seq)` truncated into the signed
32-bit range modulo `2^32` (`wrap32`), while the backing store really holds
`len(seq)` elements; consequently `Length()` agrees with the true element
count exactly when that count is below `2^31`. -/
theorem c10_int32_counter {T : Type} (s : Slice T) (seq : List T) :
    ((s.SetSlice seq).len = wrap32 seq.length ∧
     (s.SetSlice seq).slice.length = seq.length) ∧
    ((s.SetSlice seq).Length = (seq.length : Int) ↔ (seq.length : Int) < 2 ^ 31) := by
  refine ⟨⟨rfl, by simp [Slice.SetSlice, goCopy_eq]⟩, ?_⟩
  rw [Length_eq, SetSlice_len]
  exact wrap32_eq_self_iff (by omega)

/-- C7 as stated is false on the code: for `seq` of `2^31` elements,
`SetSlice(seq)` stores `int32(2^31) = -2^31` in the counter, so `Length()`
does not equal the size of `seq`. -/
theorem c7_counterexample :
    ¬ (((Slice.New Nat).SetSlice (List.replicate (2 ^ 31) 0)).GetSlice =
          List.replicate (2 ^ 31) 0 ∧
       ((Slice.New Nat).SetSlice (List.replicate (2 ^ 31) 0)).Length =
          ((List.replicate (2 ^ 31) (0 : Nat)).length : Int)) := by
  rintro ⟨-, h⟩
  rw [Length_eq, SetSlice_len, List.length_replicate] at h
  unfold wrap32 at h
  omega

/-- C7 amended: for every sequence of fewer than `2^31` elements,
`SetSlice(seq)` followed by `GetSlice()` returns a list equal to `seq` and
`Length()` equals the size of `seq`.  The container stores the fresh copy
`goCopy seq` (element-by-element `make`+`copy`, no sharing with the caller's
sequence), and `GetSlice` likewise hands out a fresh copy, so in the Go
program neither later mutation of the caller's `seq` nor later mutation of
the container can affect the other — in this embedding of immutable list
values that independence is exactly the two `goCopy` equations below. -/
theorem c7_setslice_getslice {T : Type} (s : Slice T) (seq : List T)
    (h : (seq.length : Int) < 2 ^ 31) :
    (s.SetSlice seq).GetSlice = seq ∧
    (s.SetSlice seq).Length = (seq.length : Int) ∧
    (s.SetSlice seq).slice = goCopy seq ∧ goCopy seq = seq := by
  refine ⟨?_, ?_, SetSlice_slice s seq, goCopy_eq seq⟩
  · rw [GetSlice_eq, SetSlice_slice, goCopy_eq, goCopy_eq]
  · rw [Length_eq, SetSlice_len]
    exact wrap32_eq_self (by omega) h

/-- Witness for `c7_setslice_getslice` at `seq = [3, 4, 5]`. -/
theorem c7_witness :
    ((List.length [(3 : Nat), 4, 5] : Int) < 2 ^ 31) ∧
    (((Slice.New Nat).SetSlice [3, 4, 5]).GetSlice = [3, 4, 5] ∧
     ((Slice.New Nat).SetSlice [3, 4, 5]).Length =
        (List.length [(3 : Nat), 4, 5] : Int) ∧
     ((Slice.New Nat).SetSlice [3, 4, 5]).slice = goCopy [3, 4, 5] ∧
     goCopy [(3 : Nat), 4, 5] = [3, 4, 5]) :=
  ⟨by norm_num, c7_setslice_getslice (Slice.New Nat) [3, 4, 5] (by norm_num)⟩

/-- C3: on a container satisfying the representation invariant, `Get(i)`
returns the element at index `i` paired with `true` when `0 ≤ i < Length()`,
and the zero value paired with `false` when `i < 0` or `i ≥ Length()`. -/
theorem c3_get_bounds {T : Type} [Inhabited T] (s : Slice T) (i : Int)
    (hwf : s.WF) :
    (0 ≤ i → i < s.Length → s.Get i = some (s.slice.getD i.toNat default, true)) ∧
    ((i < 0 ∨ s.Length ≤ i) → s.Get i = some (default, false)) := by
  constructor
  · intro h0 hlt
    have hlen : s.len = (s.slice.length : Int) := hwf.1
    have hn : i.toNat < s.slice.length := by
      have : i < s.len := hlt
      omega
    have hi : ((i.toNat : Nat) : Int) = i := Int.toNat_of_nonneg h0
    rw [← hi]
    exact Get_in_range_getD hlen hn
  · intro h
    exact Get_out_of_range h

/-- Witness for `c3_get_bounds` on the container `⟨[7, 8], 2⟩` at `i = 1`. -/
theorem c3_witness :
    Slice.WF (Slice.mk [(7 : Nat), 8] 2) ∧
    ((0 ≤ (1 : Int) → (1 : Int) < (Slice.mk [(7 : Nat), 8] 2).Length →
        (Slice.mk [(7 : Nat), 8] 2).Get 1 =
          some ((Slice.mk [(7 : Nat), 8] 2).slice.getD (1 : Int).toNat default, true)) ∧
     (((1 : Int) < 0 ∨ (Slice.mk [(7 : Nat), 8] 2).Length ≤ 1) →
        (Slice.mk [(7 : Nat), 8] 2).Get 1 = some (default, false))) :=
  ⟨by decide, c3_get_bounds (Slice.mk [(7 : Nat), 8] 2) 1 (by decide)⟩

/-- C1 as stated is false on the code: the length counter is an `int32`, so
after `N = 2^31` appends to a container created empty, the counter has
wrapped to `-2^31` and `Length()` does not return `N`. -/
theorem c1_counterexample :
    ¬ (((Slice.New Nat).AppendAll (List.replicate (2 ^ 31) 0)).Length =
        ((List.replicate (2 ^ 31) (0 : Nat)).length : Int)) := by
  intro h
  have hl := AppendAll_len (List.replicate (2 ^ 31) (0 : Nat)) (Slice.New Nat)
    (by rw [New_len]; unfold wrap32; omega)
  rw [Length_eq, hl, New_len, List.length_replicate] at h
  unfold wrap32 at h
  omega

/-- C1 amended: for every sequence of `N < 2^31` `Append` calls on a
container created empty, afterwards `Length()` returns `N` and `Get(i)`
returns the i-th appended value with `true` for every `0 ≤ i < N`; and from
any invariant-satisfying state whose count can still grow without wrapping
the `int32` counter, one `Append` raises the visible length by exactly 1 and
places the new element at index `old_length`. -/
theorem c1_append_spec {T : Type} [Inhabited T] (l : List T)
    (hlen : (l.length : Int) < 2 ^ 31) :
    ((Slice.New T).AppendAll l).Length = l.length ∧
    (∀ i : Nat, i < l.length →
        ((Slice.New T).AppendAll l).Get i = some (l.getD i default, true)) ∧
    (∀ (t : Slice T) (v : T), t.WF → t.len + 1 < 2 ^ 31 →
        (t.Append v).Length = t.Length + 1 ∧
        (t.Append v).Get t.Length = some (v, true)) := by
  have hs : ((Slice.New T).AppendAll l).slice = l := by
    rw [AppendAll_slice, New_slice, List.nil_append]
  have hl : ((Slice.New T).AppendAll l).len = (l.length : Int) := by
    rw [AppendAll_len l (Slice.New T) (by rw [New_len]; unfold wrap32; omega),
      New_len, Int.zero_add]
    exact wrap32_eq_self (by omega) hlen
  refine ⟨by rw [Length_eq, hl], ?_, ?_⟩
  · intro i hi
    have hi' : i < ((Slice.New T).AppendAll l).slice.length := by rw [hs]; exact hi
    rw [Get_in_range_getD (by rw [hl, hs]) hi', hs]
  · intro t v hwf hsucc
    obtain ⟨hh1, hh2⟩ := hwf
    have hw : wrap32 (t.len + 1) = t.len + 1 := wrap32_eq_self (by omega) hsucc
    have hlen' : (t.Append v).len = ((t.Append v).slice.length : Int) := by
      rw [Append_len, Append_slice, hw]
      push_cast [List.length_append, List.length_singleton]
      omega
    constructor
    · rw [Length_eq, Length_eq, Append_len, hw]
    · have hn : t.slice.length < (t.Append v).slice.length := by
        rw [Append_slice]
        simp
      have hL : t.Length = ((t.slice.length : Nat) : Int) := by
        rw [Length_eq, hh1]
      rw [hL, Get_in_range_getD hlen' hn, Append_slice,
        List.getD_eq_getElem _ _ (by simp)]
      simp

/-- Witness for `c1_append_spec` at the two-element sequence `[10, 20]`. -/
theorem c1_witness :
    ((List.length [(10 : Nat), 20] : Int) < 2 ^ 31) ∧
    (((Slice.New Nat).AppendAll [10, 20]).Length =
        (List.length [(10 : Nat), 20] : Int) ∧
     (∀ i : Nat, i < List.length [(10 : Nat), 20] →
        ((Slice.New Nat).AppendAll [10, 20]).Get i =
          some (([10, 20] : List Nat).getD i default, true)) ∧
     (∀ (t : Slice Nat) (v : Nat), t.WF → t.len + 1 < 2 ^ 31 →
        (t.Append v).Length = t.Length + 1 ∧
        (t.Append v).Get t.Length = some (v, true))) :=
  ⟨by norm_num, c1_append_spec [10, 20] (by norm_num)⟩

/-- C5: on an invariant-satisfying container of length `N`, `Remove(i)` with
`0 ≤ i < N` returns `true`, and the resulting container has length `N - 1`
and holds the original elements with the i-th removed (it is
`take i ++ drop (i+1)` of the old store: the relative order of the remaining
elements is preserved); for `i` out of range (`i < 0` or `i ≥ N`) `Remove(i)`
returns `false` and the container returned is the old one, unchanged. -/
theorem c5_remove {T : Type} (s : Slice T) (i : Int) (hwf : s.WF) :
    (0 ≤ i → i < s.Length →
      s.Remove i =
        some ({ slice := s.slice.eraseIdx i.toNat, len := s.len - 1 }, true) ∧
      ((s.slice.eraseIdx i.toNat).length : Int) = s.Length - 1 ∧
      s.slice.eraseIdx i.toNat =
        s.slice.take i.toNat ++ s.slice.drop (i.toNat + 1)) ∧
    ((i < 0 ∨ s.Length ≤ i) → s.Remove i = some (s, false)) := by
  obtain ⟨hh1, hh2⟩ := hwf
  constructor
  · intro h0 hlt
    rw [Length_eq] at hlt
    obtain ⟨n, rfl⟩ : ∃ n : Nat, i = (n : Int) :=
      ⟨i.toNat, (Int.toNat_of_nonneg h0).symm⟩
    have hn : n < s.slice.length := by omega
    have hw : wrap32 (s.len - 1) = s.len - 1 :=
      wrap32_eq_self (by omega) (by omega)
    simp only [Int.toNat_natCast]
    refine ⟨?_, ?_, List.eraseIdx_eq_take_drop_succ _ _⟩
    · rw [Remove_in_range hh1 hn, hw]
    · rw [Length_eq, List.length_eraseIdx]
      simp only [hn, if_true]
      omega
  · intro h
    rw [Length_eq] at h
    exact Remove_out_of_range h

/-- Witness for `c5_remove` on the container `⟨[1, 2, 3], 3⟩` at `i = 1`. -/
theorem c5_witness :
    Slice.WF (Slice.mk [(1 : Nat), 2, 3] 3) ∧
    ((0 ≤ (1 : Int) → (1 : Int) < (Slice.mk [(1 : Nat), 2, 3] 3).Length →
      (Slice.mk [(1 : Nat), 2, 3] 3).Remove 1 =
        some ({ slice := (Slice.mk [(1 : Nat), 2, 3] 3).slice.eraseIdx (1 : Int).toNat,
                len := (Slice.mk [(1 : Nat), 2, 3] 3).len - 1 }, true) ∧
      (((Slice.mk [(1 : Nat), 2, 3] 3).slice.eraseIdx (1 : Int).toNat).length : Int) =
        (Slice.mk [(1 : Nat), 2, 3] 3).Length - 1 ∧
      (Slice.mk [(1 : Nat), 2, 3] 3).slice.eraseIdx (1 : Int).toNat =
        (Slice.mk [(1 : Nat), 2, 3] 3).slice.take (1 : Int).toNat ++
          (Slice.mk [(1 : Nat), 2, 3] 3).slice.drop ((1 : Int).toNat + 1)) ∧
     (((1 : Int) < 0 ∨ (Slice.mk [(1 : Nat), 2, 3] 3).Length ≤ 1) →
      (Slice.mk [(1 : Nat), 2, 3] 3).Remove 1 =
        some (Slice.mk [(1 : Nat), 2, 3] 3, false))) :=
  ⟨by decide, c5_remove (Slice.mk [(1 : Nat), 2, 3] 3) 1 (by decide)⟩

/-- C4: on an invariant-satisfying container, for `0 ≤ i < Length()`:
`Set(i, v)` returns `true` and produces the container whose store has `v` at
index `i`, on which `Get(i)` returns `(v, true)`; `ManipulateAtIndex(i, f)`
returns `true` and replaces the slot at index `i` by `f` applied once to its
old value.  For `i` out of range both return `false` and hand back the old
container unmodified (`mutate` never applied: the store is untouched). -/
theorem c4_set_manipulate {T : Type} [Inhabited T] (s : Slice T) (i : Int)
    (v : T) (f : T → T) (hwf : s.WF) :
    (0 ≤ i → i < s.Length →
      s.Set i v = some ({ s with slice := s.slice.set i.toNat v }, true) ∧
      ({ s with slice := s.slice.set i.toNat v } : Slice T).Get i =
        some (v, true) ∧
      s.ManipulateAtIndex i f =
        some ({ s with
                slice := s.slice.set i.toNat (f (s.slice.getD i.toNat default)) },
              true)) ∧
    ((i < 0 ∨ s.Length ≤ i) →
      s.Set i v = some (s, false) ∧
      s.ManipulateAtIndex i f = some (s, false)) := by
  obtain ⟨hh1, hh2⟩ := hwf
  constructor
  · intro h0 hlt
    rw [Length_eq] at hlt
    obtain ⟨n, rfl⟩ : ∃ n : Nat, i = (n : Int) :=
      ⟨i.toNat, (Int.toNat_of_nonneg h0).symm⟩
    have hn : n < s.slice.length := by omega
    simp only [Int.toNat_natCast]
    refine ⟨Set_in_range v hh1 hn, ?_, ?_⟩
    · have hlen' : ({ s with slice := s.slice.set n v } : Slice T).len =
          (({ s with slice := s.slice.set n v } : Slice T).slice.length : Int) := by
        simpa [List.length_set] using hh1
      have hn' : n < ({ s with slice := s.slice.set n v } : Slice T).slice.length := by
        simpa [List.length_set] using hn
      rw [Get_in_range_getD hlen' hn']
      show some ((s.slice.set n v).getD n default, true) = _
      rw [List.getD_eq_getElem _ _ (by simpa [List.length_set] using hn)]
      simp [List.getElem_set]
    · have hget : s.slice.get ⟨n, hn⟩ = s.slice.getD n default := by
        rw [List.getD_eq_getElem _ _ hn]
        simp
      rw [ManipulateAtIndex_in_range f hh1 hn, hget]
  · intro h
    rw [Length_eq] at h
    exact ⟨Set_out_of_range v h, ManipulateAtIndex_out_of_range f h⟩

/-- Witness for `c4_set_manipulate` on `⟨[4, 5, 6], 3⟩` at `i = 1`, `v = 9`,
`f = (· + 1)`. -/
theorem c4_witness :
    Slice.WF (Slice.mk [(4 : Nat), 5, 6] 3) ∧
    ((0 ≤ (1 : Int) → (1 : Int) < (Slice.mk [(4 : Nat), 5, 6] 3).Length →
      (Slice.mk [(4 : Nat), 5, 6] 3).Set 1 9 =
        some ({ Slice.mk [(4 : Nat), 5, 6] 3 with
                slice := (Slice.mk [(4 : Nat), 5, 6] 3).slice.set (1 : Int).toNat 9 },
              true) ∧
      ({ Slice.mk [(4 : Nat), 5, 6] 3 with
         slice := (Slice.mk [(4 : Nat), 5, 6] 3).slice.set (1 : Int).toNat 9 } :
           Slice Nat).Get 1 = some (9, true) ∧
      (Slice.mk [(4 : Nat), 5, 6] 3).ManipulateAtIndex 1 (fun x => x + 1) =
        some ({ Slice.mk [(4 : Nat), 5, 6] 3 with
                slice := (Slice.mk [(4 : Nat), 5, 6] 3).slice.set (1 : Int).toNat
                  ((fun x => x + 1)
                    ((Slice.mk [(4 : Nat), 5, 6] 3).slice.getD (1 : Int).toNat
                      default)) },
              true)) ∧
     (((1 : Int) < 0 ∨ (Slice.mk [(4 : Nat), 5, 6] 3).Length ≤ 1) →
      (Slice.mk [(4 : Nat), 5, 6] 3).Set 1 9 =
        some (Slice.mk [(4 : Nat), 5, 6] 3, false) ∧
      (Slice.mk [(4 : Nat), 5, 6] 3).ManipulateAtIndex 1 (fun x => x + 1) =
        some (Slice.mk [(4 : Nat), 5, 6] 3, false))) :=
  ⟨by decide,
   c4_set_manipulate (Slice.mk [(4 : Nat), 5, 6] 3) 1 9 (fun x => x + 1)
     (by decide)⟩

/-- C2 as stated is false on the code: `SetSlice` with a sequence of `2^31`
elements completes, yet stores `int32(2^31) = -2^31` in the counter while
the backing store holds `2^31` elements, so the resulting state violates
the invariant "the length counter equals the number of stored elements". -/
theorem c2_counterexample :
    ¬ Slice.WF ((Slice.New Nat).SetSlice (List.replicate (2 ^ 31) 0)) := by
  intro h
  have h1 := h.1
  rw [SetSlice_len, SetSlice_slice, goCopy_eq, List.length_replicate] at h1
  unfold wrap32 at h1
  omega

/-- C2 amended: the invariant (counter = number of stored elements, with
that count representable in the `int32` cell, every index below it live)
holds in the initial empty state and is preserved by every completed
operation, checked or unchecked, PROVIDED the resulting element count stays
below `2^31`: `Append` needs the incremented counter still below `2^31`,
`SetSlice` an input of fewer than `2^31` elements; all other operations
preserve it unconditionally (an unchecked operation that panics, `none`,
completes no state change). -/
theorem c2_invariant_preserved {T : Type} :
    (Slice.New T).WF ∧
    (∀ (s : Slice T) (v : T), s.WF → s.len + 1 < 2 ^ 31 → (s.Append v).WF) ∧
    (∀ (s : Slice T) (l : List T), (l.length : Int) < 2 ^ 31 →
       (s.SetSlice l).WF) ∧
    (∀ (s : Slice T) (i : Int) (v : T), s.WF →
       ∃ r : Slice T × Bool, s.Set i v = some r ∧ r.1.WF) ∧
    (∀ (s : Slice T) (i : Int), s.WF →
       ∃ r : Slice T × Bool, s.Remove i = some r ∧ r.1.WF) ∧
    (∀ (s : Slice T) (i : Int) (f : T → T), s.WF →
       ∃ r : Slice T × Bool, s.ManipulateAtIndex i f = some r ∧ r.1.WF) ∧
    (∀ (s : Slice T) (i : Int) (v : T) (s' : Slice T), s.WF →
       s.SetUnsafe i v = some s' → s'.WF) ∧
    (∀ (s : Slice T) (i : Int) (s' : Slice T), s.WF →
       s.RemoveUnsafe i = some s' → s'.WF) ∧
    (∀ (s : Slice T) (i : Int) (f : T → T) (s' : Slice T), s.WF →
       s.ManipulateAtIndexUnsafe i f = some s' → s'.WF) := by
  refine ⟨⟨rfl, by rw [New_slice]; norm_num⟩, ?_, ?_, ?_, ?_, ?_, ?_, ?_, ?_⟩
  · intro s v hwf hsucc
    obtain ⟨hh1, hh2⟩ := hwf
    have hw : wrap32 (s.len + 1) = s.len + 1 := wrap32_eq_self (by omega) hsucc
    constructor
    · rw [Append_len, Append_slice, hw]
      push_cast [List.length_append, List.length_singleton]
      omega
    · rw [Append_slice]
      push_cast [List.length_append, List.length_singleton]
      omega
  · intro s l hl
    constructor
    · rw [SetSlice_len, SetSlice_slice, goCopy_eq]
      exact wrap32_eq_self (by omega) hl
    · rw [SetSlice_slice, goCopy_eq]
      exact hl
  · intro s i v hwf
    obtain ⟨hh1, hh2⟩ := hwf
    by_cases hr : i < 0 ∨ s.len ≤ i
    · exact ⟨(s, false), Set_out_of_range v hr, hh1, hh2⟩
    · push_neg at hr
      obtain ⟨n, rfl⟩ : ∃ n : Nat, i = (n : Int) :=
        ⟨i.toNat, (Int.toNat_of_nonneg hr.1).symm⟩
      have hn : n < s.slice.length := by omega
      refine ⟨_, Set_in_range v hh1 hn, ?_, ?_⟩
      · simpa [List.length_set] using hh1
      · simpa [List.length_set] using hh2
  · intro s i hwf
    obtain ⟨hh1, hh2⟩ := hwf
    by_cases hr : i < 0 ∨ s.len ≤ i
    · exact ⟨(s, false), Remove_out_of_range hr, hh1, hh2⟩
    · push_neg at hr
      obtain ⟨n, rfl⟩ : ∃ n : Nat, i = (n : Int) :=
        ⟨i.toNat, (Int.toNat_of_nonneg hr.1).symm⟩
      have hn : n < s.slice.length := by omega
      refine ⟨_, Remove_in_range hh1 hn, ?_, ?_⟩
      · show wrap32 (s.len - 1) = ((s.slice.eraseIdx n).length : Int)
        rw [wrap32_eq_self (by omega) (by omega), List.length_eraseIdx]
        simp only [hn, if_true]
        omega
      · show ((s.slice.eraseIdx n).length : Int) < 2 ^ 31
        rw [List.length_eraseIdx]
        simp only [hn, if_true]
        omega
  · intro s i f hwf
    obtain ⟨hh1, hh2⟩ := hwf
    by_cases hr : i < 0 ∨ s.len ≤ i
    · exact ⟨(s, false), ManipulateAtIndex_out_of_range f hr, hh1, hh2⟩
    · push_neg at hr
      obtain ⟨n, rfl⟩ : ∃ n : Nat, i = (n : Int) :=
        ⟨i.toNat, (Int.toNat_of_nonneg hr.1).symm⟩
      have hn : n < s.slice.length := by omega
      refine ⟨_, ManipulateAtIndex_in_range f hh1 hn, ?_, ?_⟩
      · simpa [List.length_set] using hh1
      · simpa [List.length_set] using hh2
  · intro s i v s' hwf hset
    obtain ⟨hh1, hh2⟩ := hwf
    rw [SetUnsafe_eq, Option.map_eq_some'] at hset
    obtain ⟨l, hgo, hs'⟩ := hset
    have hl := goSetElem_some hgo
    subst hs'
    subst hl
    constructor
    · simpa [List.length_set] using hh1
    · simpa [List.length_set] using hh2
  · intro s i s' hwf hrem
    obtain ⟨hh1, hh2⟩ := hwf
    rw [RemoveUnsafe_eq, Option.map_eq_some'] at hrem
    obtain ⟨l, hgo, hs'⟩ := hrem
    obtain ⟨hi0, hib, hl⟩ := goRemoveAt_some hgo
    subst hs'
    subst hl
    constructor
    · show wrap32 (s.len - 1) = _
      rw [wrap32_eq_self (by omega) (by omega)]
      push_cast [List.length_append, List.length_take, List.length_drop]
      omega
    · push_cast [List.length_append, List.length_take, List.length_drop]
      omega
  · intro s i f s' hwf hman
    obtain ⟨hh1, hh2⟩ := hwf
    rw [ManipulateAtIndexUnsafe_eq, Option.map_eq_some'] at hman
    obtain ⟨u, hgo, hs'⟩ := hman
    subst hs'
    constructor
    · simpa [List.length_set] using hh1
    · simpa [List.length_set] using hh2

/-- C6: on an invariant-satisfying container, each unchecked operation at an
index in `[0, Length())` returns/produces exactly the result and post-state
of its checked counterpart's success path; at an index outside `[0,
Length())` it panics (`none`, the calling goroutine terminates abnormally)
instead of returning a failure value.  (Go slices are modelled without spare
capacity, which the package never makes observable; the bound of the
splice in `RemoveUnsafe` is therefore the store's length.) -/
theorem c6_unchecked_vs_checked {T : Type} [Inhabited T] (s : Slice T)
    (i : Int) (v : T) (f : T → T) (hwf : s.WF) :
    (0 ≤ i → i < s.Length →
      (∃ u, s.GetUnsafe i = some u ∧ s.Get i = some (u, true)) ∧
      (∃ t, s.SetUnsafe i v = some t ∧ s.Set i v = some (t, true)) ∧
      (∃ t, s.RemoveUnsafe i = some t ∧ s.Remove i = some (t, true)) ∧
      (∃ t, s.ManipulateAtIndexUnsafe i f = some t ∧
            s.ManipulateAtIndex i f = some (t, true))) ∧
    ((i < 0 ∨ s.Length ≤ i) →
      s.GetUnsafe i = none ∧ s.SetUnsafe i v = none ∧
      s.RemoveUnsafe i = none ∧ s.ManipulateAtIndexUnsafe i f = none) := by
  obtain ⟨hh1, hh2⟩ := hwf
  constructor
  · intro h0 hlt
    rw [Length_eq] at hlt
    obtain ⟨n, rfl⟩ : ∃ n : Nat, i = (n : Int) :=
      ⟨i.toNat, (Int.toNat_of_nonneg h0).symm⟩
    have hn : n < s.slice.length := by omega
    refine ⟨⟨s.slice.get ⟨n, hn⟩, ?_, ?_⟩, ⟨_, ?_, Set_in_range v hh1 hn⟩,
      ⟨_, ?_, Remove_in_range hh1 hn⟩, ⟨_, ?_, ManipulateAtIndex_in_range f hh1 hn⟩⟩
    · rw [GetUnsafe_eq, goIndex_eq_get s.slice n hn]
    · exact Get_in_range hh1 hn
    · rw [SetUnsafe_eq, goSetElem_eq_some s.slice n v hn, Option.map_some']
    · rw [RemoveUnsafe_eq, goRemoveAt_eq_some s.slice n hn, Option.map_some']
    · rw [ManipulateAtIndexUnsafe_eq, goIndex_eq_get s.slice n hn, Option.map_some']
      simp only [Int.toNat_natCast]
  · intro h
    rw [Length_eq] at h
    have h' : (i < 0 ∨ (s.slice.length : Int) ≤ i) := by omega
    refine ⟨?_, ?_, ?_, ?_⟩
    · rw [GetUnsafe_eq, goIndex_eq_none s.slice h']
    · rw [SetUnsafe_eq, goSetElem_eq_none s.slice v h', Option.map_none']
    · rw [RemoveUnsafe_eq, goRemoveAt_eq_none s.slice h', Option.map_none']
    · rw [ManipulateAtIndexUnsafe_eq, goIndex_eq_none s.slice h', Option.map_none']

/-- Witness for `c6_unchecked_vs_checked` on `⟨[1, 2], 2⟩` at `i = 0`,
`v = 5`, `f = (· + 3)`. -/
theorem c6_witness :
    Slice.WF (Slice.mk [(1 : Nat), 2] 2) ∧
    ((0 ≤ (0 : Int) → (0 : Int) < (Slice.mk [(1 : Nat), 2] 2).Length →
      (∃ u, (Slice.mk [(1 : Nat), 2] 2).GetUnsafe 0 = some u ∧
            (Slice.mk [(1 : Nat), 2] 2).Get 0 = some (u, true)) ∧
      (∃ t, (Slice.mk [(1 : Nat), 2] 2).SetUnsafe 0 5 = some t ∧
            (Slice.mk [(1 : Nat), 2] 2).Set 0 5 = some (t, true)) ∧
      (∃ t, (Slice.mk [(1 : Nat), 2] 2).RemoveUnsafe 0 = some t ∧
            (Slice.mk [(1 : Nat), 2] 2).Remove 0 = some (t, true)) ∧
      (∃ t, (Slice.mk [(1 : Nat), 2] 2).ManipulateAtIndexUnsafe 0
              (fun x => x + 3) = some t ∧
            (Slice.mk [(1 : Nat), 2] 2).ManipulateAtIndex 0
              (fun x => x + 3) = some (t, true))) ∧
     (((0 : Int) < 0 ∨ (Slice.mk [(1 : Nat), 2] 2).Length ≤ 0) →
      (Slice.mk [(1 : Nat), 2] 2).GetUnsafe 0 = none ∧
      (Slice.mk [(1 : Nat), 2] 2).SetUnsafe 0 5 = none ∧
      (Slice.mk [(1 : Nat), 2] 2).RemoveUnsafe 0 = none ∧
      (Slice.mk [(1 : Nat), 2] 2).ManipulateAtIndexUnsafe 0
        (fun x => x + 3) = none)) :=
  ⟨by decide,
   c6_unchecked_vs_checked (Slice.mk [(1 : Nat), 2] 2) 0 5 (fun x => x + 3)
     (by decide)⟩

theorem rangeVisits_eq_spec {T : Type} (f : Int → T → Bool) (l : List T)
    (i : Int) :
    rangeVisits f i l =
      (enumFromInt i l).takeWhile (fun p => f p.1 p.2) ++
        ((enumFromInt i l).drop
          ((enumFromInt i l).takeWhile (fun p => f p.1 p.2)).length).take 1 := by
  induction l generalizing i with
  | nil => rfl
  | cons v rest ih =>
      by_cases hfv : f i v
      · rw [show rangeVisits f i (v :: rest) = (i, v) :: rangeVisits f (i + 1) rest by
          simp [rangeVisits, hfv], ih (i + 1)]
        simp [enumFromInt, List.takeWhile_cons, hfv]
      · rw [show rangeVisits f i (v :: rest) = [(i, v)] by simp [rangeVisits, hfv]]
        simp [enumFromInt, List.takeWhile_cons, hfv]

/-- C8: `Range(visit)` visits exactly the elements the design prescribes:
the live elements in index order from 0, stopping right after the first
call on which the visitor returns false (`rangeSpec`, written from the
spec's words); in particular, over a container holding `[1, 2, 3]`, an
always-true visitor is called on `(0,1), (1,2), (2,3)` in that order, and a
visitor that returns false on its first call is called only on `(0,1)`. -/
theorem c8_range {T : Type} (s : Slice T) (f : Int → T → Bool) :
    s.Range f = rangeSpec f s.slice ∧
    (Slice.mk [(1 : Nat), 2, 3] 3).Range (fun _ _ => true) =
      [(0, 1), (1, 2), (2, 3)] ∧
    (Slice.mk [(1 : Nat), 2, 3] 3).Range (fun _ _ => false) = [(0, 1)] := by
  refine ⟨?_, by decide, by decide⟩
  rw [Range_eq]
  unfold rangeSpec
  exact rangeVisits_eq_spec f s.slice 0

/-- C9: each `Append` holds the container's mutex for its whole body, so a
concurrent execution of 1000 `Append` calls of the distinct values 0..999
on a container created empty is, observably, a sequential execution of the
same calls in some order: the values reach the store as some permutation
`l` of `[0, ..., 999]`.  For every such order, afterwards `Length()` is 1000
and `GetSlice()` holds every value 0..999 exactly once — none lost, none
duplicated. -/
theorem c9_concurrent_appends (l : List Nat) (h : l.Perm (List.range 1000)) :
    ((Slice.New Nat).AppendAll l).Length = 1000 ∧
    (((Slice.New Nat).AppendAll l).GetSlice).Perm (List.range 1000) ∧
    ∀ v : Nat, v < 1000 →
      (((Slice.New Nat).AppendAll l).GetSlice).count v = 1 := by
  have hs : ((Slice.New Nat).AppendAll l).GetSlice = l := by
    rw [GetSlice_eq, AppendAll_slice, New_slice, List.nil_append, goCopy_eq]
  have hlen : l.length = 1000 := by simpa using h.length_eq
  refine ⟨?_, ?_, ?_⟩
  · rw [Length_eq,
      AppendAll_len l (Slice.New Nat) (by rw [New_len]; unfold wrap32; omega),
      New_len, hlen]
    unfold wrap32
    omega
  · rw [hs]
    exact h
  · intro v hv
    rw [hs, h.count_eq]
    exact List.count_eq_one_of_mem (List.nodup_range 1000) (by simpa using hv)

/-- Witness for `c9_concurrent_appends` at the identity interleaving
`l = [0, ..., 999]`. -/
theorem c9_witness :
    (List.range 1000).Perm (List.range 1000) ∧
    ((Slice.New Nat).AppendAll (List.range 1000)).Length = 1000 ∧
    (((Slice.New Nat).AppendAll (List.range 1000)).GetSlice).Perm
      (List.range 1000) ∧
    ∀ v : Nat, v < 1000 →
      (((Slice.New Nat).AppendAll (List.range 1000)).GetSlice).count v = 1 :=
  ⟨List.Perm.refl _, c9_concurrent_appends (List.range 1000) (List.Perm.refl _)⟩
